import Mathlib

/-!
Foucault pendulum simulation (`pendulo_foucault/main.cpp`).

A shallow embedding of the class `FoucaultPendulum` and of its member
functions.  The C++ `double` is read as an element of an arbitrary linearly
ordered field `F` with a floor function (arithmetic taken exactly): the
definitions run on `ℚ` and the theorems hold on `ℝ` as well.  The library
function `std::sin` is a parameter `sin : F → F` of the operations that call
it.  A conversion `static_cast<int>` of a value outside the range of `int` is
undefined behaviour and is modelled by `none`.  The narrowing of the
coordinates to `float` in `sf::Vector2f` is exact in this reading.
-/

/-- The colour `sf::Color(r, g, b, a)`. -/
structure Color where
  r : Nat
  g : Nat
  b : Nat
  a : Nat
deriving DecidableEq, Repr

/-- The vertex `sf::Vertex(sf::Vector2f(x, y), color)`. -/
structure Vertex (F : Type) where
  position : F × F
  color : Color
deriving DecidableEq, Repr

/-- The data members of the class `FoucaultPendulum` (lines 20-26). -/
structure FoucaultPendulum (F : Type) where
  x : F
  y : F
  vx : F
  vy : F
  ax : F
  ay : F
  time : F
  timeScale : F
  trail : List (Vertex F)
  lastUpdate : F
deriving DecidableEq, Repr

namespace FoucaultPendulum

section Model

variable {F : Type} [LinearOrderedField F] [FloorRing F]

/-- The macro `PI` (line 9). -/
def PI : F := 3.14159265358979323846

/-- The constant `l` (line 14). -/
def l : F := 2.0

/-- The constant `g` (line 15). -/
def g : F := 9.80

/-- The constant `w` (line 16). -/
def w : F := 0.07

/-- The constant `angulo` (line 17). -/
def angulo : F := 44

/-- The constant `dt` (line 18). -/
def dt : F := 1.0 / 60.0

/-- The colour every trail vertex is given. -/
def trailColor : Color := ⟨100, 100, 255, 100⟩

/-- Rounding toward zero, the value of a conversion from `double` to an
integer type. -/
def truncate (v : F) : Int := if 0 ≤ v then ⌊v⌋ else ⌈v⌉

/-- The conversion `static_cast<int>(v)`: the value rounded toward zero when
that fits a 32-bit `int`, undefined (`none`) otherwise. -/
def toInt (v : F) : Option Int :=
  if -(2 : Int) ^ 31 ≤ truncate v ∧ truncate v < (2 : Int) ^ 31 then some (truncate v) else none

/-- The constructor `FoucaultPendulum()` (lines 40-46); `now` is the reading
of `steady_clock::now()`. -/
def new (now : F) : FoucaultPendulum F :=
  let x : F := 150
  let y : F := 150
  { x := x, y := y, vx := 0, vy := 0,
    ax := -g * (x / l), ay := -g * (y / l),
    time := 0, timeScale := 1.0,
    trail := [⟨(x, y), trailColor⟩],
    lastUpdate := now }

/-- The member function `updatePhysics` (lines 66-77). -/
def updatePhysics (sin : F → F) (deltaTime : F) (s : FoucaultPendulum F) : FoucaultPendulum F :=
  let vx := s.vx + s.ax * deltaTime
  let vy := s.vy + s.ay * deltaTime
  let x := s.x + vx * deltaTime
  let y := s.y + vy * deltaTime
  let time := s.time + deltaTime
  let ax := -(g / l) * x + 2 * w * sin (angulo * PI / 180.0) * vy
  let ay := -(g / l) * y - 2 * w * sin (angulo * PI / 180.0) * vx
  { s with x := x, y := y, vx := vx, vy := vy, ax := ax, ay := ay, time := time,
           trail := s.trail ++ [⟨(x, y), trailColor⟩] }

/-- The loop `for (int i = 0; i < steps; ++i) updatePhysics(dt);` of `update`
(lines 58-60) from the counter value `i` on, `n` being the number of
iterations left, `(steps - i).toNat`. -/
def stepLoop (sin : F → F) : Nat → FoucaultPendulum F → FoucaultPendulum F
  | 0, s => s
  | n + 1, s => stepLoop sin n (updatePhysics sin dt s)

/-- The local `scaledDt` of `update` (line 53), `realDt` being the elapsed
wall-clock time. -/
def scaledDt (realDt : F) (s : FoucaultPendulum F) : F := realDt * s.timeScale

/-- The local `steps` of `update` (line 55). -/
def steps (realDt : F) (s : FoucaultPendulum F) : Option Int :=
  toInt (scaledDt realDt s / dt)

/-- The local `remainingDt` of `update` (line 56), given the value of
`steps`. -/
def remainingDt (realDt : F) (s : FoucaultPendulum F) (steps : Int) : F :=
  scaledDt realDt s - ((steps : F) * dt)

/-- The member function `update` (lines 48-64); `currentTime` is the reading
of `steady_clock::now()`. -/
def update (sin : F → F) (currentTime : F) (s : FoucaultPendulum F) :
    Option (FoucaultPendulum F) :=
  let realDt := currentTime - s.lastUpdate
  let s1 := { s with lastUpdate := currentTime }
  match steps realDt s1 with
  | none => none
  | some n =>
    let s2 := stepLoop sin n.toNat s1
    if remainingDt realDt s1 n > 0 then
      some (updatePhysics sin (remainingDt realDt s1 n) s2)
    else
      some s2

/-- The arguments of the calls of `updatePhysics` that `update` makes, in the
order of the calls (lines 58-63). -/
def updateCalls (currentTime : F) (s : FoucaultPendulum F) : Option (List F) :=
  let realDt := currentTime - s.lastUpdate
  let s1 := { s with lastUpdate := currentTime }
  match steps realDt s1 with
  | none => none
  | some n =>
    some (List.replicate n.toNat dt ++
      (if remainingDt realDt s1 n > 0 then [remainingDt realDt s1 n] else []))

/-- The member function `adjustTimeScale` (lines 79-83). -/
def adjustTimeScale (factor : F) (s : FoucaultPendulum F) : FoucaultPendulum F :=
  let s1 := { s with timeScale := s.timeScale * factor }
  let s2 := if s1.timeScale < 0.1 then { s1 with timeScale := 0.1 } else s1
  if s2.timeScale > 200.0 then { s2 with timeScale := 200.0 } else s2

/-- The member function `reset` (lines 120-132). -/
def reset (s : FoucaultPendulum F) : FoucaultPendulum F :=
  let x : F := 150
  let y : F := 150
  { s with x := x, y := y, vx := 0, vy := 0,
           ax := -g * (x / l), ay := -g * (y / l),
           time := 0, timeScale := 1.0,
           trail := [⟨(x, y), trailColor⟩] }

/-- The library function `std::fmod`: the remainder of `x / y` with the
quotient rounded toward zero, so that the result has the sign of `x`. -/
def fmod (x y : F) : F := x - (truncate (x / y) : F) * y

/-- The effect of `std::setw(n)` with `std::setfill(fill)` on the next item
written to the stream: fill characters are put in front of an item shorter than
`n` characters. -/
def setw (n : Nat) (fill : Char) (item : String) : String :=
  String.mk (List.replicate (n - item.length) fill) ++ item

/-- Rounding of a non-negative value to the nearest integer, a tie going to the
even neighbour, as the stream does when it drops digits. -/
def roundHalfEven (v : F) : Int :=
  if v - ⌊v⌋ < 1 / 2 then ⌊v⌋
  else if 1 / 2 < v - ⌊v⌋ then ⌊v⌋ + 1
  else if ⌊v⌋ % 2 = 0 then ⌊v⌋ else ⌊v⌋ + 1

/-- A `double` written under `std::fixed << std::setprecision(1)`: the sign,
the integer part and one decimal of the value rounded to a tenth. -/
def showFixed1 (v : F) : String :=
  let tenths := (roundHalfEven (|v| * 10)).toNat
  (if v < 0 then "-" else "") ++ toString (tenths / 10) ++ "." ++ toString (tenths % 10)

/-- The member function `formatTime` (lines 28-38). -/
def formatTime (seconds : F) : Option String :=
  match toInt seconds with
  | none => none
  | some i =>
    let hours := i.tdiv 3600
    let minutes := (i.tmod 3600).tdiv 60
    let secs := fmod seconds 60.0
    some (setw 2 '0' (toString hours) ++ ":" ++ setw 2 '0' (toString minutes) ++ ":"
      ++ setw 4 '0' (showFixed1 secs))

/-- The local `displayTrail` of `draw` after its loop (lines 86-89): a copy
of the trail with every position moved by `offset`. -/
def displayTrail (offset : F × F) (s : FoucaultPendulum F) : List (Vertex F) :=
  s.trail.map (fun vertex => { vertex with position := vertex.position + offset })

/-- The states the program can be in: the constructed one and those the
member functions `update`, `updatePhysics`, `adjustTimeScale` and `reset` lead
to. -/
inductive Reachable (sin : F → F) : FoucaultPendulum F → Prop
  | new (now : F) : Reachable sin (FoucaultPendulum.new now)
  | update (currentTime : F) (s s' : FoucaultPendulum F) :
      Reachable sin s → FoucaultPendulum.update sin currentTime s = some s' → Reachable sin s'
  | updatePhysics (deltaTime : F) (s : FoucaultPendulum F) :
      Reachable sin s → Reachable sin (FoucaultPendulum.updatePhysics sin deltaTime s)
  | adjustTimeScale (factor : F) (s : FoucaultPendulum F) :
      Reachable sin s → Reachable sin (FoucaultPendulum.adjustTimeScale factor s)
  | reset (s : FoucaultPendulum F) :
      Reachable sin s → Reachable sin (FoucaultPendulum.reset s)

/-- The state after `adjustTimeScale` has been called with each factor of a
list in turn. -/
def adjustAll (factors : List F) (s : FoucaultPendulum F) : FoucaultPendulum F :=
  factors.foldl (fun st factor => adjustTimeScale factor st) s

/-- The state after `updatePhysics` has been called with each step size of a
list in turn. -/
def runCalls (sin : F → F) (calls : List F) (s : FoucaultPendulum F) : FoucaultPendulum F :=
  calls.foldl (fun st deltaTime => updatePhysics sin deltaTime st) s

/-- The phase-space point (x, y, vx, vy) of a state. -/
def phasePoint (s : FoucaultPendulum F) : Fin 4 → F := ![s.x, s.y, s.vx, s.vy]

/-- A state at the phase-space point `v` whose acceleration is the one lines
73-74 compute for that position and velocity. -/
def phaseState (sin : F → F) (v : Fin 4 → F) : FoucaultPendulum F :=
  { x := v 0, y := v 1, vx := v 2, vy := v 3,
    ax := -(g / l) * v 0 + 2 * w * sin (angulo * PI / 180.0) * v 3,
    ay := -(g / l) * v 1 - 2 * w * sin (angulo * PI / 180.0) * v 2,
    time := 0, timeScale := 1.0,
    trail := [⟨(v 0, v 1), trailColor⟩],
    lastUpdate := 0 }

/-- The map (x, y, vx, vy) ↦ (x', y', vx', vy') that `updatePhysics` with
step `deltaTime` performs on phase space. -/
def phaseMap (sin : F → F) (deltaTime : F) (v : Fin 4 → F) : Fin 4 → F :=
  phasePoint (updatePhysics sin deltaTime (phaseState sin v))

/-- The matrix of `phaseMap` in the canonical basis: column `j` is the image of
the `j`-th basis vector. -/
def phaseMatrix (sin : F → F) (deltaTime : F) : Matrix (Fin 4) (Fin 4) F :=
  Matrix.of (fun i j => phaseMap sin deltaTime (Pi.single j 1) i)

end Model

/-- A polynomial stand-in for `std::sin` with rational values, on which the
operations can be run. -/
def sinTaylor (t : ℚ) : ℚ := t - t ^ 3 / 6 + t ^ 5 / 120

/-- The state after construction and fourteen calls `adjustTimeScale(1.5)`,
the key `+` pressed fourteen times. -/
def fastest : FoucaultPendulum ℚ := adjustAll (List.replicate 14 1.5) (new 0)

/-- A value of the state type with the negative time scale -1, which no call
sequence produces. -/
def reversed : FoucaultPendulum ℚ := { new 0 with timeScale := -1 }

section Lemmas

variable {F : Type} [LinearOrderedField F]

theorem dt_pos : (0 : F) < dt := by
  unfold dt; norm_num

theorem adjustTimeScale_range (factor : F) (s : FoucaultPendulum F) :
    0.1 ≤ (adjustTimeScale factor s).timeScale ∧ (adjustTimeScale factor s).timeScale ≤ 200.0 := by
  unfold adjustTimeScale
  by_cases h1 : s.timeScale * factor < 0.1
  · have h2 : ¬ ((0.1 : F) > 200.0) := by norm_num
    simp only [h1, if_true, h2, if_false]
    norm_num
  · by_cases h2 : s.timeScale * factor > 200.0
    · simp only [h1, if_false, h2, if_true]
      norm_num
    · simp only [h1, if_false, h2]
      exact ⟨not_lt.mp h1, not_lt.mp h2⟩

theorem adjustAll_append (fs : List F) (f : F) (s : FoucaultPendulum F) :
    adjustAll (fs ++ [f]) s = adjustTimeScale f (adjustAll fs s) := by
  simp [adjustAll, List.foldl_append]

theorem adjustAll_range (factors : List F) (s : FoucaultPendulum F)
    (h : factors ≠ [] ∨ (0.1 ≤ s.timeScale ∧ s.timeScale ≤ 200.0)) :
    0.1 ≤ (adjustAll factors s).timeScale ∧ (adjustAll factors s).timeScale ≤ 200.0 := by
  induction factors using List.reverseRecOn with
  | nil =>
    rcases h with h | h
    · exact absurd rfl h
    · simpa [adjustAll] using h
  | append_singleton fs f _ =>
    rw [adjustAll_append]
    exact adjustTimeScale_range f _

theorem runCalls_append (sin : F → F) (cs ds : List F) (s : FoucaultPendulum F) :
    runCalls sin (cs ++ ds) s = runCalls sin ds (runCalls sin cs s) := by
  simp [runCalls, List.foldl_append]

theorem stepLoop_eq_runCalls (sin : F → F) (n : Nat) (s : FoucaultPendulum F) :
    stepLoop sin n s = runCalls sin (List.replicate n dt) s := by
  induction n generalizing s with
  | zero => rfl
  | succ k ih =>
    show stepLoop sin k (updatePhysics sin dt s) = _
    rw [ih]
    rfl

theorem runCalls_time (sin : F → F) (calls : List F) (s : FoucaultPendulum F) :
    (runCalls sin calls s).time = s.time + calls.sum := by
  induction calls generalizing s with
  | nil => simp [runCalls]
  | cons d ds ih =>
    show (runCalls sin ds (updatePhysics sin d s)).time = _
    rw [ih]
    show s.time + d + ds.sum = _
    rw [List.sum_cons, add_assoc]

theorem runCalls_trail (sin : F → F) (calls : List F) (s : FoucaultPendulum F) :
    s.trail <+: (runCalls sin calls s).trail ∧
    (runCalls sin calls s).trail.length = s.trail.length + calls.length := by
  induction calls generalizing s with
  | nil => simp [runCalls]
  | cons d ds ih =>
    have h := ih (updatePhysics sin d s)
    have hp : s.trail <+: (updatePhysics sin d s).trail := List.prefix_append _ _
    have hl : (updatePhysics sin d s).trail.length = s.trail.length + 1 := by
      simp [updatePhysics]
    refine ⟨hp.trans h.1, ?_⟩
    show (runCalls sin ds (updatePhysics sin d s)).trail.length = _
    rw [h.2, hl, List.length_cons]
    omega

theorem runCalls_timeScale (sin : F → F) (calls : List F) (s : FoucaultPendulum F) :
    (runCalls sin calls s).timeScale = s.timeScale ∧
    (runCalls sin calls s).lastUpdate = s.lastUpdate := by
  induction calls generalizing s with
  | nil => simp [runCalls]
  | cons d ds ih => exact ih (updatePhysics sin d s)

theorem runCalls_accel (sin : F → F) (calls : List F) (s : FoucaultPendulum F)
    (h : s.ax = -(g / l) * s.x + 2 * w * sin (angulo * PI / 180.0) * s.vy ∧
         s.ay = -(g / l) * s.y - 2 * w * sin (angulo * PI / 180.0) * s.vx) :
    (runCalls sin calls s).ax = -(g / l) * (runCalls sin calls s).x
        + 2 * w * sin (angulo * PI / 180.0) * (runCalls sin calls s).vy ∧
    (runCalls sin calls s).ay = -(g / l) * (runCalls sin calls s).y
        - 2 * w * sin (angulo * PI / 180.0) * (runCalls sin calls s).vx := by
  induction calls generalizing s with
  | nil => simpa [runCalls] using h
  | cons d ds ih => exact ih (updatePhysics sin d s) ⟨rfl, rfl⟩

theorem det_fin_four (a b c d e f g h i j k l m n o p : F) :
    Matrix.det !![a, b, c, d; e, f, g, h; i, j, k, l; m, n, o, p] =
      a * (f * k * p - f * l * o - g * j * p + g * l * n + h * j * o - h * k * n)
      - b * (e * k * p - e * l * o - g * i * p + g * l * m + h * i * o - h * k * m)
      + c * (e * j * p - e * l * n - f * i * p + f * l * m + h * i * n - h * j * m)
      - d * (e * j * o - e * k * n - f * i * o + f * k * m + g * i * n - g * j * m) := by
  have h1 : (Fin.castSucc (2 : Fin 3) : Fin 4) = 2 := rfl
  have h2 : (Fin.succ (2 : Fin 3) : Fin 4) = 3 := rfl
  have h3 : (1 : Fin 4) < 3 := by decide
  rw [Matrix.det_succ_row_zero]
  simp [Fin.sum_univ_succ, Matrix.det_fin_three, Fin.succAbove, Matrix.submatrix, h1, h2, h3]
  ring

theorem phaseMatrix_eq (sin : F → F) (D : F) :
    phaseMatrix sin D =
      !![1 - g / l * D * D, 0, D, 2 * w * sin (angulo * PI / 180.0) * D * D;
         0, 1 - g / l * D * D, -(2 * w * sin (angulo * PI / 180.0) * D * D), D;
         -(g / l * D), 0, 1, 2 * w * sin (angulo * PI / 180.0) * D;
         0, -(g / l * D), -(2 * w * sin (angulo * PI / 180.0) * D), 1] := by
  ext i j
  fin_cases i <;> fin_cases j <;>
    simp [phaseMatrix, phaseMap, phasePoint, phaseState, updatePhysics] <;> ring

theorem phaseMatrix_det (sin : F → F) (D : F) :
    (phaseMatrix sin D).det = 1 + (2 * w * sin (angulo * PI / 180.0) * D) ^ 2 := by
  rw [phaseMatrix_eq, det_fin_four]
  ring

theorem phasePoint_phaseState (sin : F → F) (v : Fin 4 → F) :
    phasePoint (phaseState sin v) = v := by
  funext i
  fin_cases i <;> rfl

theorem updatePhysics_linear (sin : F → F) (D : F) (s : FoucaultPendulum F)
    (h : s.ax = -(g / l) * s.x + 2 * w * sin (angulo * PI / 180.0) * s.vy ∧
         s.ay = -(g / l) * s.y - 2 * w * sin (angulo * PI / 180.0) * s.vx) :
    phasePoint (updatePhysics sin D s) = (phaseMatrix sin D).mulVec (phasePoint s) := by
  rw [phaseMatrix_eq]
  funext i
  fin_cases i <;>
    simp [phasePoint, updatePhysics, Matrix.mulVec, Matrix.dotProduct, Fin.sum_univ_succ,
      h.1, h.2] <;> ring

theorem w_ne_zero : (w : F) ≠ 0 := by
  unfold w; norm_num

theorem phaseMatrix_det_eq_one_iff (sin : F → F) (D : F) :
    (phaseMatrix sin D).det = 1 ↔ D = 0 ∨ sin (angulo * PI / 180.0) = 0 := by
  rw [phaseMatrix_det]
  constructor
  · intro h
    have h2 : (2 * w * sin (angulo * PI / 180.0) * D) ^ 2 = 0 := by linarith
    have h3 : 2 * w * sin (angulo * PI / 180.0) * D = 0 := pow_eq_zero_iff (two_ne_zero) |>.mp h2
    rcases mul_eq_zero.mp h3 with h4 | h4
    · rcases mul_eq_zero.mp h4 with h5 | h5
      · exact absurd h5 (mul_ne_zero two_ne_zero w_ne_zero)
      · exact Or.inr h5
    · exact Or.inl h4
  · rintro (h | h) <;> rw [h] <;> ring

theorem new_timeScale_lo : (0.1 : ℚ) ≤ (new (0 : ℚ)).timeScale := by
  norm_num [new]

theorem new_timeScale_hi : (new (0 : ℚ)).timeScale ≤ 200.0 := by
  norm_num [new]

theorem new_scaled_range : scaledDt (1 / 20) (new (0 : ℚ)) / dt < 2 ^ 31 := by
  norm_num [new, scaledDt, dt]

end Lemmas

section FloorLemmas

variable {F : Type} [LinearOrderedField F] [FloorRing F]

theorem truncate_of_nonneg (v : F) (h : 0 ≤ v) : truncate v = ⌊v⌋ := by
  simp [truncate, h]

theorem update_eq_runCalls (sin : F → F) (currentTime : F) (s : FoucaultPendulum F) :
    update sin currentTime s =
      (updateCalls currentTime s).map
        (fun calls => runCalls sin calls { s with lastUpdate := currentTime }) := by
  unfold update updateCalls
  dsimp only
  generalize steps (currentTime - s.lastUpdate) { s with lastUpdate := currentTime } = o
  cases o with
  | none => rfl
  | some n =>
    dsimp only [Option.map_some']
    split_ifs with h
    · rw [runCalls_append, ← stepLoop_eq_runCalls]
      rfl
    · rw [List.append_nil, ← stepLoop_eq_runCalls]

theorem steps_eq_floor (D : F) (s : FoucaultPendulum F) (hq : 0 ≤ scaledDt D s)
    (hr : scaledDt D s / dt < 2 ^ 31) :
    steps D s = some ⌊scaledDt D s / dt⌋ ∧ 0 ≤ ⌊scaledDt D s / dt⌋ := by
  have hq0 : 0 ≤ scaledDt D s / dt := div_nonneg hq dt_pos.le
  have hf0 : 0 ≤ ⌊scaledDt D s / dt⌋ := Int.floor_nonneg.mpr hq0
  have hf1 : ⌊scaledDt D s / dt⌋ < (2 : Int) ^ 31 := by
    have e : (((2 : Int) ^ 31 : Int) : F) = 2 ^ 31 := by norm_num
    rw [Int.floor_lt, e]
    exact hr
  refine ⟨?_, hf0⟩
  unfold steps toInt
  rw [truncate_of_nonneg _ hq0, if_pos]
  exact ⟨le_trans (by norm_num) hf0, hf1⟩

theorem remainingDt_bounds (D : F) (s : FoucaultPendulum F) :
    0 ≤ remainingDt D s ⌊scaledDt D s / dt⌋ ∧ remainingDt D s ⌊scaledDt D s / dt⌋ < dt := by
  have hd : (0 : F) < dt := dt_pos
  have h1 : (⌊scaledDt D s / dt⌋ : F) ≤ scaledDt D s / dt := Int.floor_le _
  have h2 : scaledDt D s / dt < ⌊scaledDt D s / dt⌋ + 1 := Int.lt_floor_add_one _
  rw [le_div_iff₀ hd] at h1
  rw [div_lt_iff₀ hd] at h2
  unfold remainingDt
  constructor
  · linarith
  · linarith

theorem update_spec (sin : F → F) (s : FoucaultPendulum F) (D : F)
    (hq : 0 ≤ scaledDt D s) (hr : scaledDt D s / dt < 2 ^ 31) :
    updateCalls (s.lastUpdate + D) s =
      some (List.replicate ⌊scaledDt D s / dt⌋.toNat dt ++
        (if remainingDt D s ⌊scaledDt D s / dt⌋ > 0
          then [remainingDt D s ⌊scaledDt D s / dt⌋] else [])) ∧
    update sin (s.lastUpdate + D) s =
      some (runCalls sin (List.replicate ⌊scaledDt D s / dt⌋.toNat dt ++
        (if remainingDt D s ⌊scaledDt D s / dt⌋ > 0
          then [remainingDt D s ⌊scaledDt D s / dt⌋] else []))
        { s with lastUpdate := s.lastUpdate + D }) := by
  have hc : updateCalls (s.lastUpdate + D) s =
      some (List.replicate ⌊scaledDt D s / dt⌋.toNat dt ++
        (if remainingDt D s ⌊scaledDt D s / dt⌋ > 0
          then [remainingDt D s ⌊scaledDt D s / dt⌋] else [])) := by
    have hs : steps (s.lastUpdate + D - s.lastUpdate) { s with lastUpdate := s.lastUpdate + D }
        = some ⌊scaledDt D s / dt⌋ := by
      rw [add_sub_cancel_left]
      exact (steps_eq_floor D s hq hr).1
    unfold updateCalls
    dsimp only
    rw [hs, add_sub_cancel_left]
    rfl
  refine ⟨hc, ?_⟩
  rw [update_eq_runCalls, hc]
  rfl

theorem floor_toNat_cast (v : F) (h : 0 ≤ v) : ((⌊v⌋.toNat : Nat) : F) = (⌊v⌋ : F) := by
  have h0 : (0 : Int) ≤ ⌊v⌋ := Int.floor_nonneg.mpr h
  have h1 : ((⌊v⌋.toNat : Nat) : Int) = ⌊v⌋ := Int.toNat_of_nonneg h0
  calc ((⌊v⌋.toNat : Nat) : F) = (((⌊v⌋.toNat : Nat) : Int) : F) := (Int.cast_natCast _).symm
    _ = (⌊v⌋ : F) := by rw [h1]

theorem updateCalls_sum (D : F) (s : FoucaultPendulum F) (hq : 0 ≤ scaledDt D s) :
    (List.replicate ⌊scaledDt D s / dt⌋.toNat dt ++
        (if remainingDt D s ⌊scaledDt D s / dt⌋ > 0
          then [remainingDt D s ⌊scaledDt D s / dt⌋] else [])).sum = scaledDt D s := by
  have hq0 : 0 ≤ scaledDt D s / dt := div_nonneg hq dt_pos.le
  have hb := remainingDt_bounds D s
  rw [List.sum_append, List.sum_replicate, nsmul_eq_mul, floor_toNat_cast _ hq0]
  split_ifs with h
  · rw [List.sum_singleton]
    unfold remainingDt
    ring
  · have h0 : remainingDt D s ⌊scaledDt D s / dt⌋ = 0 := le_antisymm (not_lt.mp h) hb.1
    unfold remainingDt at h0
    rw [List.sum_nil]
    linarith

theorem reachable_timeScale_range (sin : F → F) (s : FoucaultPendulum F)
    (h : Reachable sin s) : 0.1 ≤ s.timeScale ∧ s.timeScale ≤ 200.0 := by
  induction h with
  | new now => constructor <;> norm_num [new]
  | update currentTime s s' _ hu ih =>
    rw [update_eq_runCalls] at hu
    cases hc : updateCalls currentTime s with
    | none => rw [hc] at hu; exact absurd hu (by simp)
    | some calls =>
      rw [hc, Option.map_some', Option.some.injEq] at hu
      rw [← hu, (runCalls_timeScale sin calls _).1]
      exact ih
  | updatePhysics deltaTime s _ ih => exact ih
  | adjustTimeScale factor s _ _ => exact adjustTimeScale_range factor s
  | reset s _ _ => constructor <;> norm_num [reset]

theorem reachable_adjustAll (sin : F → F) (factors : List F) (s : FoucaultPendulum F)
    (h : Reachable sin s) : Reachable sin (adjustAll factors s) := by
  induction factors using List.reverseRecOn with
  | nil => exact h
  | append_singleton fs f ih =>
    rw [adjustAll_append]
    exact Reachable.adjustTimeScale f _ ih

theorem fastest_timeScale : fastest.timeScale = 200 := by
  simp only [fastest, List.replicate, adjustAll, List.foldl, adjustTimeScale, new]
  norm_num

theorem fastest_update_none (sin : ℚ → ℚ) :
    update sin (fastest.lastUpdate + 200000) fastest = none := by
  have hq : scaledDt (200000 : ℚ) fastest / dt = ((2400000000 : Int) : ℚ) := by
    unfold scaledDt dt
    rw [fastest_timeScale]
    norm_num
  have ht : truncate (scaledDt (200000 : ℚ) fastest / dt) = 2400000000 := by
    rw [truncate_of_nonneg _ (by rw [hq]; norm_num), hq, Int.floor_intCast]
  have hs : steps (200000 : ℚ) fastest = none := by
    unfold steps toInt
    rw [ht]
    decide
  unfold update
  dsimp only
  rw [add_sub_cancel_left]
  have hs2 : steps (200000 : ℚ) { fastest with lastUpdate := fastest.lastUpdate + 200000 }
      = none := hs
  rw [hs2]

theorem reversed_update (sin : ℚ → ℚ) :
    update sin (reversed.lastUpdate + 1 / 120) reversed =
      some { reversed with lastUpdate := reversed.lastUpdate + 1 / 120 } := by
  have hq : scaledDt (1 / 120 : ℚ) reversed / dt = -1 / 2 := by
    norm_num [scaledDt, dt, reversed]
  have ht : truncate (scaledDt (1 / 120 : ℚ) reversed / dt) = 0 := by
    unfold truncate
    rw [hq, if_neg (by norm_num), Int.ceil_eq_iff]
    norm_num
  have hs : steps (1 / 120 : ℚ) { reversed with lastUpdate := reversed.lastUpdate + 1 / 120 }
      = some 0 := by
    show toInt (scaledDt (1 / 120 : ℚ) reversed / dt) = some 0
    unfold toInt
    rw [ht]
    decide
  have hr : ¬ (remainingDt (1 / 120 : ℚ)
      { reversed with lastUpdate := reversed.lastUpdate + 1 / 120 } 0 > 0) := by
    norm_num [remainingDt, scaledDt, reversed]
  unfold update
  dsimp only
  rw [add_sub_cancel_left, hs]
  dsimp only
  rw [if_neg hr]
  rfl

theorem reversed_floor : ⌊(1 / 120 : ℚ) * reversed.timeScale / dt⌋ = -1 := by
  have hq : (1 / 120 : ℚ) * reversed.timeScale / dt = -1 / 2 := by
    norm_num [dt, reversed]
  rw [hq, Int.floor_eq_iff]
  norm_num

end FloorLemmas

section Claims

variable {F : Type} [LinearOrderedField F]

/-- C3: `reset` gives every state the dynamic fields of a freshly constructed
simulation (position (150, 150), zero velocity, acceleration
(-g*150/l, -g*150/l), time 0, time scale 1.0, a trail of the one point
(150, 150)), keeps the wall-clock anchor `lastUpdate`, and is idempotent. -/
theorem reset_eq_new (s : FoucaultPendulum F) :
    reset s = new s.lastUpdate ∧
    ((reset s).x = 150 ∧ (reset s).y = 150 ∧ (reset s).vx = 0 ∧ (reset s).vy = 0 ∧
      (reset s).ax = -g * 150 / l ∧ (reset s).ay = -g * 150 / l ∧
      (reset s).time = 0 ∧ (reset s).timeScale = 1.0 ∧
      (reset s).trail = [⟨(150, 150), trailColor⟩]) ∧
    (reset s).lastUpdate = s.lastUpdate ∧
    reset (reset s) = reset s := by
  refine ⟨rfl, ⟨rfl, rfl, rfl, rfl, ?_, ?_, rfl, rfl, rfl⟩, rfl, rfl⟩
  · show -g * (150 / l) = -g * 150 / l
    ring
  · show -g * (150 / l) = -g * 150 / l
    ring

/-- C5: `updatePhysics` with step `D` adds `ax*D`, `ay*D` (old acceleration)
to the velocity, then `vx'*D`, `vy'*D` (new velocity) to the position and `D`
to the time, recomputes the acceleration from the new position and the new
velocity, and keeps the time scale. -/
theorem updatePhysics_post (sin : F → F) (D : F) (s : FoucaultPendulum F) :
    (updatePhysics sin D s).vx = s.vx + s.ax * D ∧
    (updatePhysics sin D s).vy = s.vy + s.ay * D ∧
    (updatePhysics sin D s).x = s.x + (updatePhysics sin D s).vx * D ∧
    (updatePhysics sin D s).y = s.y + (updatePhysics sin D s).vy * D ∧
    (updatePhysics sin D s).time = s.time + D ∧
    (updatePhysics sin D s).ax =
      -(g / l) * (updatePhysics sin D s).x
        + 2 * w * sin (angulo * PI / 180.0) * (updatePhysics sin D s).vy ∧
    (updatePhysics sin D s).ay =
      -(g / l) * (updatePhysics sin D s).y
        - 2 * w * sin (angulo * PI / 180.0) * (updatePhysics sin D s).vx ∧
    (updatePhysics sin D s).timeScale = s.timeScale := by
  exact ⟨rfl, rfl, rfl, rfl, rfl, rfl, rfl, rfl⟩

/-- C9, as the code has it: on states satisfying the acceleration relation
the map (x, y, vx, vy) ↦ (x', y', vx', vy') of `updatePhysics` with step `D` is
the linear map of matrix `phaseMatrix`, whose determinant is
`1 + (2*w*sin(angulo*PI/180)*D)^2`; it is 1 exactly when `D = 0` or the sine
vanishes. -/
theorem updatePhysics_phase_det (sin : F → F) (D : F) (s : FoucaultPendulum F)
    (h : s.ax = -(g / l) * s.x + 2 * w * sin (angulo * PI / 180.0) * s.vy ∧
         s.ay = -(g / l) * s.y - 2 * w * sin (angulo * PI / 180.0) * s.vx) :
    phasePoint (updatePhysics sin D s) = (phaseMatrix sin D).mulVec (phasePoint s) ∧
    (phaseMatrix sin D).det = 1 + (2 * w * sin (angulo * PI / 180.0) * D) ^ 2 ∧
    ((phaseMatrix sin D).det = 1 ↔ D = 0 ∨ sin (angulo * PI / 180.0) = 0) :=
  ⟨updatePhysics_linear sin D s h, phaseMatrix_det sin D, phaseMatrix_det_eq_one_iff sin D⟩

end Claims

/-- Witness of C9 (amended): a state at the point (1, 2, 3, 4) with its
acceleration set by the relation, stepped by 1/60. -/
theorem updatePhysics_phase_det_witness :
    ((phaseState sinTaylor ![1, 2, 3, 4]).ax =
        -(g / l) * (phaseState sinTaylor ![1, 2, 3, 4]).x
          + 2 * w * sinTaylor (angulo * PI / 180.0) * (phaseState sinTaylor ![1, 2, 3, 4]).vy ∧
      (phaseState sinTaylor ![1, 2, 3, 4]).ay =
        -(g / l) * (phaseState sinTaylor ![1, 2, 3, 4]).y
          - 2 * w * sinTaylor (angulo * PI / 180.0) * (phaseState sinTaylor ![1, 2, 3, 4]).vx) ∧
    (phasePoint (updatePhysics sinTaylor (1 / 60) (phaseState sinTaylor ![1, 2, 3, 4])) =
        (phaseMatrix sinTaylor (1 / 60)).mulVec (phasePoint (phaseState sinTaylor ![1, 2, 3, 4])) ∧
      (phaseMatrix sinTaylor (1 / 60)).det
        = 1 + (2 * w * sinTaylor (angulo * PI / 180.0) * (1 / 60)) ^ 2 ∧
      ((phaseMatrix sinTaylor (1 / 60)).det = 1 ↔
        (1 / 60 : ℚ) = 0 ∨ sinTaylor (angulo * PI / 180.0) = 0)) :=
  ⟨⟨rfl, rfl⟩, updatePhysics_phase_det sinTaylor (1 / 60) _ ⟨rfl, rfl⟩⟩

/-- C9 fails on the code: over the reals, with `std::sin` the real sine and the
step `dt`, no matrix of determinant 1 represents the map that `updatePhysics`
performs on the states satisfying the acceleration relation. -/
theorem phase_det_ne_one :
    ¬ ∃ M : Matrix (Fin 4) (Fin 4) ℝ,
      (∀ s : FoucaultPendulum ℝ,
        (s.ax = -(g / l) * s.x + 2 * w * Real.sin (angulo * PI / 180.0) * s.vy ∧
          s.ay = -(g / l) * s.y - 2 * w * Real.sin (angulo * PI / 180.0) * s.vx) →
        phasePoint (updatePhysics Real.sin dt s) = M.mulVec (phasePoint s)) ∧
      M.det = 1 := by
  rintro ⟨M, hM, hdet⟩
  have hM2 : M = phaseMatrix Real.sin dt := by
    ext i j
    have h := hM (phaseState Real.sin (Pi.single j 1)) ⟨rfl, rfl⟩
    rw [phasePoint_phaseState, Matrix.mulVec_single_one] at h
    have h2 := congrFun h i
    rw [Matrix.transpose_apply] at h2
    rw [← h2]
    rfl
  rw [hM2, phaseMatrix_det_eq_one_iff] at hdet
  rcases hdet with h | h
  · exact absurd h (ne_of_gt dt_pos)
  · have hpos : 0 < Real.sin (angulo * PI / 180.0) := by
      apply Real.sin_pos_of_pos_of_lt_pi
      · unfold angulo PI; norm_num
      · have := Real.pi_gt_three
        unfold angulo PI
        norm_num
        linarith
    exact absurd h (ne_of_gt hpos)

section FloorClaims

variable {F : Type} [LinearOrderedField F] [FloorRing F]

/-- C1: for a state with time scale in [0.1, 200.0] and an elapsed time
`D ≥ 0` whose scaled quotient `scaledDt / dt` fits an `int`, `update` returns
a state whose `time` is the previous `time` plus exactly `D * timeScale`. -/
theorem update_time (sin : F → F) (s : FoucaultPendulum F) (D : F)
    (hlo : 0.1 ≤ s.timeScale) (_hhi : s.timeScale ≤ 200.0) (hD : 0 ≤ D)
    (hr : scaledDt D s / dt < 2 ^ 31) :
    ∃ s', update sin (s.lastUpdate + D) s = some s' ∧ s'.time = s.time + D * s.timeScale := by
  have hts : 0 ≤ s.timeScale := le_trans (by norm_num) hlo
  have hq : 0 ≤ scaledDt D s := mul_nonneg hD hts
  refine ⟨_, (update_spec sin s D hq hr).2, ?_⟩
  rw [runCalls_time, updateCalls_sum D s hq]
  rfl

/-- C10: for a state with time scale in [0.1, 200.0] and an elapsed time
`D ≥ 0` whose scaled quotient fits an `int`, `steps` is the non-negative integer
`floor(scaledDt / dt)`, `0 ≤ remainingDt < dt`, and every step size `update`
passes to `updatePhysics` lies in `(0, dt]`, with `dt = 1/60`. -/
theorem update_step_bound (sin : F → F) (s : FoucaultPendulum F) (D : F)
    (hlo : 0.1 ≤ s.timeScale) (_hhi : s.timeScale ≤ 200.0) (hD : 0 ≤ D)
    (hr : scaledDt D s / dt < 2 ^ 31) :
    steps D s = some ⌊scaledDt D s / dt⌋ ∧ 0 ≤ ⌊scaledDt D s / dt⌋ ∧
    0 ≤ remainingDt D s ⌊scaledDt D s / dt⌋ ∧ remainingDt D s ⌊scaledDt D s / dt⌋ < dt ∧
    (dt : F) = 1 / 60 ∧
    ∃ calls, updateCalls (s.lastUpdate + D) s = some calls ∧
      update sin (s.lastUpdate + D) s =
        some (runCalls sin calls { s with lastUpdate := s.lastUpdate + D }) ∧
      ∀ d ∈ calls, 0 < d ∧ d ≤ dt := by
  have hts : 0 ≤ s.timeScale := le_trans (by norm_num) hlo
  have hq : 0 ≤ scaledDt D s := mul_nonneg hD hts
  have hb := remainingDt_bounds D s
  have hs := steps_eq_floor D s hq hr
  have hu := update_spec sin s D hq hr
  refine ⟨hs.1, hs.2, hb.1, hb.2, by unfold dt; norm_num, _, hu.1, hu.2, ?_⟩
  intro d hd
  rw [List.mem_append] at hd
  rcases hd with hd | hd
  · rw [(List.mem_replicate.mp hd).2]
    exact ⟨dt_pos, le_refl _⟩
  · split_ifs at hd with h
    · rw [List.mem_singleton] at hd
      rw [hd]
      exact ⟨h, hb.2.le⟩
    · exact absurd hd (List.not_mem_nil _)

/-- C4, as the code has it (arithmetic taken exactly): `updatePhysics` keeps
the trail as a prefix and appends the one point (new x, new y);
`adjustTimeScale` leaves the trail unchanged; and for an elapsed time `D ≥ 0`,
when the time scale is not negative and `scaledDt / dt` is within the range of
`int`, `update` extends the trail by exactly `floor(D*timeScale/dt)` points,
plus one when the remainder `D*timeScale - floor(D*timeScale/dt)*dt` is
strictly positive. -/
theorem trail_growth (sin : F → F) (s : FoucaultPendulum F) (D : F) :
    (∀ deltaTime : F, (updatePhysics sin deltaTime s).trail =
      s.trail ++ [⟨((updatePhysics sin deltaTime s).x, (updatePhysics sin deltaTime s).y),
        trailColor⟩]) ∧
    (∀ factor : F, (adjustTimeScale factor s).trail = s.trail) ∧
    (0 ≤ D → 0 ≤ s.timeScale → D * s.timeScale / dt < 2 ^ 31 →
      ∃ s', update sin (s.lastUpdate + D) s = some s' ∧ s.trail <+: s'.trail ∧
        s'.trail.length = s.trail.length + ⌊D * s.timeScale / dt⌋.toNat +
          (if 0 < D * s.timeScale - ⌊D * s.timeScale / dt⌋ * dt then 1 else 0)) := by
  refine ⟨fun _ => rfl, ?_, ?_⟩
  · intro factor
    unfold adjustTimeScale
    dsimp only
    split_ifs <;> rfl
  · intro hD hts hr
    have hq : 0 ≤ scaledDt D s := mul_nonneg hD hts
    have ht := runCalls_trail sin (List.replicate ⌊scaledDt D s / dt⌋.toNat dt ++
        (if remainingDt D s ⌊scaledDt D s / dt⌋ > 0
          then [remainingDt D s ⌊scaledDt D s / dt⌋] else []))
        { s with lastUpdate := s.lastUpdate + D }
    refine ⟨_, (update_spec sin s D hq hr).2, ht.1, ?_⟩
    rw [ht.2, List.length_append, List.length_replicate, add_assoc]
    show s.trail.length + (⌊D * s.timeScale / dt⌋.toNat +
      (if D * s.timeScale - ⌊D * s.timeScale / dt⌋ * dt > 0
        then [D * s.timeScale - ⌊D * s.timeScale / dt⌋ * dt] else []).length) = _
    split_ifs <;> simp [add_assoc]

/-- C6: in every reachable state the acceleration is the one the equations of
motion give for the committed position and velocity:
`ax = -(g/l)*x + 2*w*sin(angulo*PI/180)*vy` and
`ay = -(g/l)*y - 2*w*sin(angulo*PI/180)*vx`. -/
theorem accel_never_stale (sin : F → F) (s : FoucaultPendulum F) (h : Reachable sin s) :
    s.ax = -(g / l) * s.x + 2 * w * sin (angulo * PI / 180.0) * s.vy ∧
    s.ay = -(g / l) * s.y - 2 * w * sin (angulo * PI / 180.0) * s.vx := by
  induction h with
  | new now =>
    constructor
    · show -g * (150 / l) = -(g / l) * 150 + 2 * w * sin (angulo * PI / 180.0) * 0
      ring
    · show -g * (150 / l) = -(g / l) * 150 - 2 * w * sin (angulo * PI / 180.0) * 0
      ring
  | update currentTime s s' _ hu ih =>
    rw [update_eq_runCalls] at hu
    cases hc : updateCalls currentTime s with
    | none => rw [hc] at hu; exact absurd hu (by simp)
    | some calls =>
      rw [hc, Option.map_some', Option.some.injEq] at hu
      rw [← hu]
      exact runCalls_accel sin calls _ ih
  | updatePhysics deltaTime s _ _ => exact ⟨rfl, rfl⟩
  | adjustTimeScale factor s _ ih =>
    unfold FoucaultPendulum.adjustTimeScale
    dsimp only
    split_ifs <;> exact ih
  | reset s _ _ =>
    constructor
    · show -g * (150 / l) = -(g / l) * 150 + 2 * w * sin (angulo * PI / 180.0) * 0
      ring
    · show -g * (150 / l) = -(g / l) * 150 - 2 * w * sin (angulo * PI / 180.0) * 0
      ring

/-- C8: in every reachable state the trail has at least one entry, so the
copy `displayTrail` that `draw` makes has an element 0. -/
theorem trail_nonempty (sin : F → F) (s : FoucaultPendulum F) (h : Reachable sin s) :
    0 < s.trail.length ∧
    ∀ offset : F × F, ∃ vertex, (displayTrail offset s).get? 0 = some vertex := by
  have hl : 0 < s.trail.length := by
    induction h with
    | new now => exact Nat.one_pos
    | update currentTime s s' _ hu ih =>
      rw [update_eq_runCalls] at hu
      cases hc : updateCalls currentTime s with
      | none => rw [hc] at hu; exact absurd hu (by simp)
      | some calls =>
        rw [hc, Option.map_some', Option.some.injEq] at hu
        rw [← hu, (runCalls_trail sin calls _).2]
        exact Nat.lt_of_lt_of_le ih (Nat.le_add_right _ _)
    | updatePhysics deltaTime s _ ih =>
      show 0 < (s.trail ++ [_]).length
      rw [List.length_append]
      exact Nat.lt_of_lt_of_le ih (Nat.le_add_right _ _)
    | adjustTimeScale factor s _ ih =>
      unfold FoucaultPendulum.adjustTimeScale
      dsimp only
      split_ifs <;> exact ih
    | reset s _ _ => exact Nat.one_pos
  refine ⟨hl, fun offset => ?_⟩
  have hd : 0 < (displayTrail offset s).length := by
    unfold displayTrail
    rw [List.length_map]
    exact hl
  exact ⟨(displayTrail offset s).get ⟨0, hd⟩, List.get?_eq_get hd⟩

/-- C2: after `adjustTimeScale` has been applied with each factor of a
sequence in turn, the time scale lies in [0.1, 200.0]: from every reachable
state, and from any state at all once a call was made or when its time scale
was in range; from time scale 1.0, twenty calls with factor 1.5 give exactly
200.0. -/
theorem adjustTimeScale_clamp (sin : F → F) (s : FoucaultPendulum F) (factors : List F) :
    (Reachable sin s →
      0.1 ≤ (adjustAll factors s).timeScale ∧ (adjustAll factors s).timeScale ≤ 200.0) ∧
    (factors ≠ [] ∨ (0.1 ≤ s.timeScale ∧ s.timeScale ≤ 200.0) →
      0.1 ≤ (adjustAll factors s).timeScale ∧ (adjustAll factors s).timeScale ≤ 200.0) ∧
    (s.timeScale = 1.0 → (adjustAll (List.replicate 20 1.5) s).timeScale = 200.0) := by
  refine ⟨fun hs => adjustAll_range factors s (Or.inr (reachable_timeScale_range sin s hs)),
    adjustAll_range factors s, ?_⟩
  intro h
  simp only [List.replicate, adjustAll, List.foldl, adjustTimeScale, h]
  norm_num

/-- C7 fails on the code at t = 59.97: the seconds are rounded to 60.0 when
written and nothing is carried to the minutes, so `formatTime` gives
`00:00:60.0`, a seconds field outside 00.0..59.9. -/
theorem formatTime_rollover : formatTime (59.97 : F) = some "00:00:60.0" := by
  have h1 : truncate (59.97 : F) = 59 := by
    rw [truncate_of_nonneg _ (by norm_num), Int.floor_eq_iff]; norm_num
  have h2 : truncate ((59.97 : F) / 60.0) = 0 := by
    rw [truncate_of_nonneg _ (by norm_num), Int.floor_eq_iff]; norm_num
  have h3 : ⌊|(59.97 : F)| * 10⌋ = 599 := by
    rw [abs_of_nonneg (by norm_num), Int.floor_eq_iff]; norm_num
  have h4 : roundHalfEven (|(59.97 : F)| * 10) = 600 := by
    unfold roundHalfEven
    rw [h3, abs_of_nonneg (by norm_num)]
    norm_num
  have h5 : toInt (59.97 : F) = some 59 := by
    unfold toInt
    rw [h1]
    decide
  have h6 : ¬ ((59.97 : F) < 0) := by norm_num
  unfold formatTime
  rw [h5]
  simp only [fmod, h2, showFixed1, Int.cast_zero, zero_mul, sub_zero, h4, h6, if_false]
  decide

end FloorClaims

/-- Witness of C1: the constructed state, 1/20 s later. -/
theorem update_time_witness :
    ((0.1 : ℚ) ≤ (new (0 : ℚ)).timeScale ∧ (new (0 : ℚ)).timeScale ≤ 200.0 ∧ (0 : ℚ) ≤ 1 / 20 ∧
      scaledDt (1 / 20) (new (0 : ℚ)) / dt < 2 ^ 31) ∧
    ∃ s', update sinTaylor ((new (0 : ℚ)).lastUpdate + 1 / 20) (new 0) = some s' ∧
      s'.time = (new (0 : ℚ)).time + 1 / 20 * (new (0 : ℚ)).timeScale :=
  ⟨⟨new_timeScale_lo, new_timeScale_hi, by norm_num, new_scaled_range⟩,
    update_time sinTaylor (new 0) (1 / 20) new_timeScale_lo new_timeScale_hi (by norm_num)
      new_scaled_range⟩

/-- Witness of C10: the constructed state, 1/20 s later. -/
theorem update_step_bound_witness :
    ((0.1 : ℚ) ≤ (new (0 : ℚ)).timeScale ∧ (new (0 : ℚ)).timeScale ≤ 200.0 ∧ (0 : ℚ) ≤ 1 / 20 ∧
      scaledDt (1 / 20) (new (0 : ℚ)) / dt < 2 ^ 31) ∧
    ∃ calls, updateCalls ((new (0 : ℚ)).lastUpdate + 1 / 20) (new 0) = some calls ∧
      ∀ d ∈ calls, 0 < d ∧ d ≤ dt :=
  ⟨⟨new_timeScale_lo, new_timeScale_hi, by norm_num, new_scaled_range⟩,
    let h := (update_step_bound sinTaylor (new 0) (1 / 20) new_timeScale_lo new_timeScale_hi
      (by norm_num) new_scaled_range).2.2.2.2.2
    ⟨h.choose, h.choose_spec.1, h.choose_spec.2.2⟩⟩

/-- C4 fails on the code as it is worded, for every `D ≥ 0` and every state.
In the reachable state `fastest` (time scale 200) an elapsed time of 200000 s
makes `scaledDt / dt` 2400000000, outside `int`: the conversion is undefined and
`update` has no result to count trail points on.  In the state value `reversed`
(time scale -1) an elapsed time of 1/120 s makes no call of `updatePhysics`, the
trail keeps its length, while the formula of the claim asks for one more
point. -/
theorem trail_growth_fails :
    (Reachable sinTaylor fastest ∧ (0 : ℚ) ≤ 200000 ∧
      update sinTaylor (fastest.lastUpdate + 200000) fastest = none ∧
      ¬ ∃ s', update sinTaylor (fastest.lastUpdate + 200000) fastest = some s' ∧
        s'.trail.length = fastest.trail.length + ⌊200000 * fastest.timeScale / dt⌋.toNat +
          (if 0 < 200000 * fastest.timeScale - ⌊200000 * fastest.timeScale / dt⌋ * dt
            then 1 else 0)) ∧
    ((0 : ℚ) ≤ 1 / 120 ∧
      ¬ ∃ s', update sinTaylor (reversed.lastUpdate + 1 / 120) reversed = some s' ∧
        s'.trail.length = reversed.trail.length + ⌊1 / 120 * reversed.timeScale / dt⌋.toNat +
          (if 0 < 1 / 120 * reversed.timeScale - ⌊1 / 120 * reversed.timeScale / dt⌋ * dt
            then 1 else 0)) := by
  refine ⟨⟨reachable_adjustAll sinTaylor _ _ (Reachable.new 0), by norm_num,
    fastest_update_none sinTaylor, ?_⟩, by norm_num, ?_⟩
  · rintro ⟨s', hs', _⟩
    rw [fastest_update_none] at hs'
    exact absurd hs' (by simp)
  · rintro ⟨s', hs', hlen⟩
    rw [reversed_update, Option.some.injEq] at hs'
    rw [← hs', reversed_floor] at hlen
    have hpos : (0 : ℚ) < 1 / 120 * reversed.timeScale - ((-1 : Int) : ℚ) * dt := by
      norm_num [reversed, dt]
    rw [if_pos hpos] at hlen
    simp at hlen

/-- Witness of C4: the constructed state, 1/20 s later. -/
theorem trail_growth_witness :
    ((0 : ℚ) ≤ 1 / 20 ∧ 0 ≤ (new (0 : ℚ)).timeScale ∧
      1 / 20 * (new (0 : ℚ)).timeScale / dt < 2 ^ 31) ∧
    ∃ s', update sinTaylor ((new (0 : ℚ)).lastUpdate + 1 / 20) (new 0) = some s' ∧
      (new (0 : ℚ)).trail <+: s'.trail ∧
      s'.trail.length = (new (0 : ℚ)).trail.length + ⌊1 / 20 * (new (0 : ℚ)).timeScale / dt⌋.toNat +
        (if 0 < 1 / 20 * (new (0 : ℚ)).timeScale - ⌊1 / 20 * (new (0 : ℚ)).timeScale / dt⌋ * dt
          then 1 else 0) :=
  ⟨⟨by norm_num, by norm_num [new], new_scaled_range⟩,
    (trail_growth sinTaylor (new 0) (1 / 20)).2.2 (by norm_num) (by norm_num [new])
      new_scaled_range⟩

/-- Witness of C2: two calls after a step from the constructed state, a call
from a state with time scale 1000, and the twenty calls with factor 1.5. -/
theorem adjustTimeScale_clamp_witness :
    (0.1 ≤ (adjustAll [1.5, 0.001] (updatePhysics sinTaylor dt (new 0))).timeScale ∧
      (adjustAll [1.5, 0.001] (updatePhysics sinTaylor dt (new 0))).timeScale ≤ 200.0) ∧
    (0.1 ≤ (adjustAll [1.5] { new (0 : ℚ) with timeScale := 1000 }).timeScale ∧
      (adjustAll [1.5] { new (0 : ℚ) with timeScale := 1000 }).timeScale ≤ 200.0) ∧
    (adjustAll (List.replicate 20 1.5) (new (0 : ℚ))).timeScale = 200.0 :=
  ⟨(adjustTimeScale_clamp sinTaylor (updatePhysics sinTaylor dt (new 0)) [1.5, 0.001]).1
      (Reachable.updatePhysics _ _ (Reachable.new 0)),
    (adjustTimeScale_clamp sinTaylor { new (0 : ℚ) with timeScale := 1000 } [1.5]).2.1
      (Or.inl (List.cons_ne_nil _ _)),
    (adjustTimeScale_clamp sinTaylor (new 0) []).2.2 rfl⟩

/-- Witness of C6: the state after a step of `dt`, a change of time scale and a
further step. -/
theorem accel_never_stale_witness :
    Reachable sinTaylor
      (updatePhysics sinTaylor (1 / 100) (adjustTimeScale 1.5 (updatePhysics sinTaylor dt (new 0)))) ∧
    (updatePhysics sinTaylor (1 / 100)
        (adjustTimeScale 1.5 (updatePhysics sinTaylor dt (new 0)))).ax =
      -(g / l) * (updatePhysics sinTaylor (1 / 100)
        (adjustTimeScale 1.5 (updatePhysics sinTaylor dt (new 0)))).x
      + 2 * w * sinTaylor (angulo * PI / 180.0) * (updatePhysics sinTaylor (1 / 100)
        (adjustTimeScale 1.5 (updatePhysics sinTaylor dt (new 0)))).vy :=
  ⟨Reachable.updatePhysics _ _ (Reachable.adjustTimeScale _ _
      (Reachable.updatePhysics _ _ (Reachable.new 0))),
    (accel_never_stale sinTaylor _ (Reachable.updatePhysics _ _ (Reachable.adjustTimeScale _ _
      (Reachable.updatePhysics _ _ (Reachable.new 0))))).1⟩

/-- Witness of C8: the state after a step of `dt` and a reset. -/
theorem trail_nonempty_witness :
    Reachable sinTaylor (reset (updatePhysics sinTaylor dt (new 0))) ∧
    0 < (reset (updatePhysics sinTaylor dt (new 0))).trail.length :=
  ⟨Reachable.reset _ (Reachable.updatePhysics _ _ (Reachable.new 0)),
    (trail_nonempty sinTaylor _
      (Reachable.reset _ (Reachable.updatePhysics _ _ (Reachable.new 0)))).1⟩

end FoucaultPendulum

